import Mathlib

/-!
Shallow embedding of the layer-chain propagation engine in CNN.cpp.

Modelling conventions:
* C++ float arithmetic is idealized as arithmetic in a field (theorems are
  stated at the instances ℚ, for executable witnesses, and ℝ, where the
  sigmoid activation is involved).
* A layer is the record of its mutable state; the doubly linked chain of
  layers is represented positionally: a forward traversal carries the
  current layer together with the list of layers downstream of it, a
  backward traversal carries the current layer together with the list of
  layers upstream of it (closest first).
* `std::vector::operator[]` has no bounds check; an out-of-range access is
  undefined behaviour.  Every element access is therefore modelled with the
  total lookup `l[i]?` and a whole operation returns `Option`, with `none`
  standing for the executions (out-of-range access, or the
  `std::runtime_error` thrown by `dot`) in which the C++ code has no
  defined result.
* the two `for` loops of the source become `forRange` (a loop collecting
  one value per index) and `foldRange` (a loop threading state), both
  iterating `i = 0, 1, ..., n-1` in program order.
-/

/-- One iteration collector: run `f` on `0, ..., n-1` in order, collecting
the results; `none` as soon as one step fails. -/
def forRange (f : Nat → Option β) : Nat → Option (List β)
  | 0 => some []
  | n + 1 => (forRange f n).bind fun l => (f n).map fun b => l ++ [b]

/-- One iteration folder: run `f` on `0, ..., n-1` in order, threading the
state `s`; `none` as soon as one step fails. -/
def foldRange (f : σ → Nat → Option σ) (init : σ) : Nat → Option σ
  | 0 => some init
  | n + 1 => (foldRange f init n).bind fun s => f s n

/-- The mutable state of `class Layer`: activation vector `values`, bias
vector `biases`, outgoing weight matrix `weights`, and the two sizes.
(The C++ fields `weight_size` and `bias_size` are stored by the constructor
but never read anywhere, so they are omitted.  The `prev`/`next` pointers
are represented positionally by the traversal functions, and explicitly in
the pointer model `PtrLayer`/`Store` below.) -/
structure Layer (α : Type) where
  values : List α
  biases : List α
  weights : List (List α)
  in_size : Nat
  out_size : Nat
deriving DecidableEq

/-- The constructor `Layer(in_size, out_size, weight_size, bias_size)`:
`values.resize(in_size)` and `biases.resize(in_size)` zero-fill both
vectors; `weights` stays empty until `init_weights`. -/
def Layer.new {α : Type} [Field α] (in_size out_size : Nat) : Layer α :=
  ⟨List.replicate in_size 0, List.replicate in_size 0, [], in_size, out_size⟩

/-- `float dot(vec_t a, vec_t b)`: throws (`none`) when the sizes differ,
otherwise the inner product with initial accumulator `0`. -/
def dot {α : Type} [Field α] (a b : List α) : Option α :=
  if a.length = b.length then some (List.zipWith (fun x y => x * y) a b).sum else none

/-- `Layer::init_weights` with the random draws supplied as the oracle
`draws` (`draws i j` is the value drawn for entry `(i, j)`): a no-op when
the layer has no successor, otherwise the weight matrix is rebuilt with
`out_size` rows of `in_size` fresh draws.  Biases are not touched. -/
def Layer.init_weights {α : Type} [Field α] (draws : Nat → Nat → α) (hasNext : Bool)
    (L : Layer α) : Layer α :=
  if hasNext then
    { L with weights :=
        (List.range L.out_size).map fun i => (List.range L.in_size).map fun j => draws i j }
  else L

/-- The neuron loop of `Layer::forward_propogate`: for each `i < out_size`,
`next->values[i] = activation(dot(weights[i], values) + next->biases[i])`.
Returns the updated successor layer. -/
def Layer.forward_neurons {α : Type} [Field α] (act : α → α) (L N : Layer α) :
    Option (Layer α) :=
  (forRange (fun i =>
      (L.weights[i]?).bind fun w =>
        (dot w L.values).bind fun d =>
          (N.biases[i]?).map fun b => act (d + b)) L.out_size).bind fun newvals =>
    if L.out_size ≤ N.values.length then
      some { N with values := newvals ++ N.values.drop L.out_size }
    else none

/-- `Layer::forward_propogate` on the layer `cur` whose downstream chain is
`rest` (nearest successor first): a no-op when there is no successor,
otherwise run the neuron loop into the successor and recurse on it.
Returns the updated chain `cur :: rest`, nearest layer first. -/
def Layer.forward_propogate {α : Type} [Field α] (act : α → α) (cur : Layer α) :
    List (Layer α) → Option (List (Layer α))
  | [] => some [cur]
  | N :: rest =>
      (Layer.forward_neurons act cur N).bind fun N2 =>
        (Layer.forward_propogate act N2 rest).map fun ch => cur :: ch

/-- The inner `j` loop body of `Layer::back_propogate` for a fixed outer
index `i` (error signal `di = delta[i]`, predecessor activations `pvals`,
predecessor weight row `w`, current `prev_delta` vector `pd`): for each
`j < w.size()`, first `w[j] = w[j] + 0.1f * delta[i] * prev->values[j]`
and then, reading the freshly written `w[j]` back,
`prev_delta[j] = prev->values[j] * (1 - prev->values[j]) * w[j] * delta[i]`.
Returns the updated row and the updated `prev_delta`. -/
def backRow {α : Type} [Field α] (di : α) (pvals w pd : List α) :
    Option (List α × List α) :=
  (forRange (fun j =>
      (pvals[j]?).bind fun pv =>
        (w[j]?).map fun wj =>
          (wj + 1 / 10 * di * pv,
           pv * (1 - pv) * (wj + 1 / 10 * di * pv) * di)) w.length).bind fun pairs =>
    if w.length ≤ pd.length then
      some (pairs.map Prod.fst, pairs.map Prod.snd ++ pd.drop w.length)
    else none

/-- One outer (`i`) iteration of `Layer::back_propogate`: take the row
`prev->weights[i]` and `delta[i]`, run the inner loop, store the updated
row back at index `i` and continue with the updated `prev_delta`.
(The source reads `delta[i]` inside the inner loop; it is read once here,
which is equivalent whenever the row is nonempty.) -/
def backRowsStep {α : Type} [Field α] (pvals delta : List α)
    (acc : List (List α) × List α) (i : Nat) : Option (List (List α) × List α) :=
  (acc.1[i]?).bind fun w =>
    (delta[i]?).bind fun di =>
      (backRow di pvals w acc.2).map fun r => (acc.1.set i r.1, r.2)

/-- The whole loop nest of `Layer::back_propogate` acting on the
predecessor `P` of the current layer `L`: `prev_delta` starts as
`prev->in_size` zeroes (`resize`), the outer loop runs `i` over
`0, ..., L.in_size - 1`, and the result is the updated predecessor (only
its `weights` change) together with the final `prev_delta`. -/
def Layer.back_step {α : Type} [Field α] (P L : Layer α) (delta : List α) :
    Option (Layer α × List α) :=
  (foldRange (backRowsStep P.values delta)
      (P.weights, List.replicate P.in_size 0) L.in_size).map fun r =>
    ({ P with weights := r.1 }, r.2)

/-- `Layer::back_propogate(delta)` on the layer `cur` whose upstream chain
is `prevs` (nearest predecessor first): a no-op when there is no
predecessor, otherwise update the predecessor's weights, compute
`prev_delta`, and recurse on the predecessor with it.  Returns the updated
chain `cur :: prevs`, nearest layer first. -/
def Layer.back_propogate {α : Type} [Field α] (cur : Layer α) :
    List (Layer α) → List α → Option (List (Layer α))
  | [], _ => some [cur]
  | P :: rest, delta =>
      (Layer.back_step P cur delta).bind fun r =>
        (Layer.back_propogate r.1 rest r.2).map fun ch => cur :: ch

/-- `class CNN`: the owned ordered sequence of layers, head first. -/
structure CNN (α : Type) where
  layers : List (Layer α)
deriving DecidableEq

/-- `CNN::forward_propogate`: `head()->forward_propogate()`.  On an empty
network `head()` is a null pointer and the call is undefined (`none`). -/
def CNN.forward_propogate {α : Type} [Field α] (act : α → α) (net : CNN α) :
    Option (CNN α) :=
  match net.layers with
  | [] => none
  | L :: rest => (Layer.forward_propogate act L rest).map fun ch => CNN.mk ch

/-- `CNN::back_propogate(labels)`: build the initial delta for the tail,
`delta[i] = tail->values[i] * (1 - tail->values[i]) * (labels[i] - tail->values[i])`
for `i < tail->in_size` (no length check on `labels`), then
`tail()->back_propogate(delta)`.  On an empty network `tail()` is a null
pointer and the call is undefined (`none`). -/
def CNN.back_propogate {α : Type} [Field α] (net : CNN α) (labels : List α) :
    Option (CNN α) :=
  match net.layers.reverse with
  | [] => none
  | T :: prevs =>
      (forRange (fun i =>
          (T.values[i]?).bind fun tv =>
            (labels[i]?).map fun li => tv * (1 - tv) * (li - tv)) T.in_size).bind fun delta =>
        (Layer.back_propogate T prevs delta).map fun ch => CNN.mk ch.reverse

/-- `CNN::init`: `init_weights` on every layer in order; only the layers
that have a successor (all but the last) rebuild their weights. -/
def CNN.init {α : Type} [Field α] (draws : Nat → Nat → Nat → α) (net : CNN α) : CNN α :=
  CNN.mk ((List.range net.layers.length).map fun k =>
    match net.layers[k]? with
    | none => Layer.new 0 0
    | some L => L.init_weights (draws k) (decide (k + 1 < net.layers.length)))

/-! ### The activation function and the shape invariant -/

/-- float sigmoid(float x): 1 / (1 + exp(-x)); activation(x) delegates
to it. -/
noncomputable def sigmoid (x : ℝ) : ℝ := 1 / (1 + Real.exp (-x))

/-- Per-layer part of the data-model invariant: the activation and bias
vectors both have length in_size (as established by the constructor). -/
def layerWFB (L : Layer α) : Bool :=
  (L.values.length == L.in_size) && (L.biases.length == L.in_size)

/-- The section 3 shape invariant along a chain (head first): every layer
is well formed, every non-terminal layer has out_size weight rows of
length in_size, and the successor has out_size neurons. -/
def chainInvB : List (Layer α) → Bool
  | [] => true
  | [L] => layerWFB L
  | L :: N :: rest =>
      layerWFB L && (L.weights.length == L.out_size) &&
        L.weights.all (fun w => w.length == L.in_size) &&
        (N.in_size == L.out_size) && chainInvB (N :: rest)

/-! ### The pointer model of chain wiring (add_tail / CNN::add) -/

/-- The prev/next pointers of one layer, with layers identified by their
index in a store. -/
structure PtrLayer where
  prev : Option Nat
  next : Option Nat
deriving DecidableEq

/-- A heap of layers; index `i` plays the role of the address of layer
`i`. -/
structure Store where
  layers : List PtrLayer
deriving DecidableEq

/-- Rewrite the pointer fields of layer `i` in place. -/
def Store.update (st : Store) (i : Nat) (f : PtrLayer → PtrLayer) : Store :=
  ⟨st.layers.set i (f (st.layers.getD i ⟨none, none⟩))⟩

/-- Layer::add_tail(layer): next = layer.get(); layer->prev = this.
No check of any kind is performed: existing adjacency is overwritten. -/
def add_tail (st : Store) (self other : Nat) : Store :=
  (st.update self fun l => { l with next := some other }).update other
    fun l => { l with prev := some self }

/-- CNN::add(layer): if the network has a tail, add_tail to it; then push
the layer onto the owned sequence. -/
def netAdd (st : Store) (net : List Nat) (lid : Nat) : Store × List Nat :=
  match net.getLast? with
  | none => (st, net ++ [lid])
  | some t => (add_tail st t lid, net ++ [lid])

/-- A store of `n` freshly constructed layers (prev and next both null). -/
def freshStore (n : Nat) : Store := ⟨List.replicate n ⟨none, none⟩⟩

/-- Appending the freshly constructed layers `0, ..., n - 1`, in order, to
an initially empty network. -/
def buildChain (n : Nat) : Store × List Nat :=
  (List.range n).foldl (fun p i => netAdd p.1 p.2 i) (freshStore n, [])

/-- Length of the adjacency chain traversed by following next pointers
from `start`, cut off at `fuel` steps. -/
def chainLen (st : Store) : Nat → Option Nat → Nat
  | 0, _ => 0
  | _, none => 0
  | fuel + 1, some i => 1 + chainLen st fuel (st.layers.getD i ⟨none, none⟩).next

/-! ### Generic lemmas about the loop combinators and list lookups -/

theorem isSome_getElem_opt (l : List β) (i : Nat) : l[i]?.isSome ↔ i < l.length := by
  constructor
  · intro h
    by_contra hlt
    rw [List.getElem?_eq_none (Nat.le_of_not_lt hlt)] at h
    simp at h
  · intro h
    rw [List.getElem?_eq_getElem h]
    simp

theorem getElem_opt_eq_some_getD (l : List β) (i : Nat) (d : β) (h : i < l.length) :
    l[i]? = some (l.getD i d) := by
  rw [List.getElem?_eq_getElem h, List.getD_eq_getElem l d h]

theorem getElem_opt_eq_getD (l : List β) (i : Nat) (d x : β) (h : l[i]? = some x) :
    l.getD i d = x := by
  rw [List.getD_eq_getElem?_getD, h]
  rfl

/-- If every step of a collecting loop succeeds with the value `g i`, the
loop collects exactly the list of those values. -/
theorem forRange_eq_some (f : Nat → Option β) (g : Nat → β) :
    ∀ n, (∀ i, i < n → f i = some (g i)) →
      forRange f n = some ((List.range n).map g) := by
  intro n
  induction n with
  | zero => intro _; rfl
  | succ m ih =>
    intro h
    have hm := ih fun i hi => h i (Nat.lt_succ_of_lt hi)
    simp [forRange, hm, h m (Nat.lt_succ_self m), List.range_succ]

/-- A collecting loop fails as soon as one of its steps fails. -/
theorem forRange_eq_none (f : Nat → Option β) (i : Nat) (hf : f i = none) :
    ∀ n, i < n → forRange f n = none := by
  intro n
  induction n with
  | zero => intro h; exact absurd h (Nat.not_lt_zero i)
  | succ m ih =>
    intro h
    rcases Nat.lt_succ_iff_lt_or_eq.mp h with h' | h'
    · simp [forRange, ih h']
    · subst h'
      cases hm : forRange f i <;> simp [forRange, hm, hf]

/-- A collecting loop that succeeds had every step succeed. -/
theorem forRange_isSome (f : Nat → Option β) :
    ∀ n l, forRange f n = some l → ∀ i, i < n → (f i).isSome := by
  intro n
  induction n with
  | zero => intro _ _ i hi; exact absurd hi (Nat.not_lt_zero i)
  | succ m ih =>
    intro l h i hi
    rw [forRange] at h
    rcases hm : forRange f m with _ | lm
    · rw [hm] at h; simp at h
    · rcases Nat.lt_succ_iff_lt_or_eq.mp hi with h' | h'
      · exact ih lm hm i h'
      · subst h'
        rw [hm] at h
        rcases hf : f i with _ | b
        · rw [hf] at h; simp at h
        · simp

/-- Two collecting loops whose bodies agree below the bound agree. -/
theorem forRange_congr (f f2 : Nat → Option β) :
    ∀ n, (∀ i, i < n → f i = f2 i) → forRange f n = forRange f2 n := by
  intro n
  induction n with
  | zero => intro _; rfl
  | succ m ih =>
    intro h
    rw [forRange, forRange, ih fun i hi => h i (Nat.lt_succ_of_lt hi),
      h m (Nat.lt_succ_self m)]

/-! ### Characterization of the backward inner loop -/

/-- Closed form of one inner (`j`) loop pass: when the reads stay in range,
the row is replaced entrywise by its post-update value and the first
`w.length` entries of `prev_delta` are replaced by the derivative formula
evaluated at the freshly written weight. -/
theorem backRow_eq {α : Type} [Field α] (di : α) (pvals w pd : List α)
    (hp : w.length ≤ pvals.length) (hpd : w.length ≤ pd.length) :
    backRow di pvals w pd = some
      ((List.range w.length).map fun j => w.getD j 0 + 1 / 10 * di * pvals.getD j 0,
       ((List.range w.length).map fun j =>
          pvals.getD j 0 * (1 - pvals.getD j 0) *
            (w.getD j 0 + 1 / 10 * di * pvals.getD j 0) * di) ++ pd.drop w.length) := by
  have hloop := forRange_eq_some
    (fun j => (pvals[j]?).bind fun pv => (w[j]?).map fun wj =>
        (wj + 1 / 10 * di * pv, pv * (1 - pv) * (wj + 1 / 10 * di * pv) * di))
    (fun j =>
        (w.getD j 0 + 1 / 10 * di * pvals.getD j 0,
         pvals.getD j 0 * (1 - pvals.getD j 0) *
           (w.getD j 0 + 1 / 10 * di * pvals.getD j 0) * di))
    w.length
    (fun j hj => by
      simp only [getElem_opt_eq_some_getD pvals j 0 (Nat.lt_of_lt_of_le hj hp),
        getElem_opt_eq_some_getD w j 0 hj, Option.some_bind, Option.map_some'])
  rw [backRow, hloop]
  simp [hpd, List.map_map, Function.comp]

/-- A successful inner loop pass implies the reads were in range, and then
its result is the closed form of `backRow_eq`. -/
theorem backRow_of_eq_some {α : Type} [Field α] {di : α} {pvals w pd : List α}
    {r : List α × List α} (h : backRow di pvals w pd = some r) :
    w.length ≤ pvals.length ∧ w.length ≤ pd.length ∧
      r = ((List.range w.length).map fun j => w.getD j 0 + 1 / 10 * di * pvals.getD j 0,
           ((List.range w.length).map fun j =>
              pvals.getD j 0 * (1 - pvals.getD j 0) *
                (w.getD j 0 + 1 / 10 * di * pvals.getD j 0) * di) ++ pd.drop w.length) := by
  rw [backRow] at h
  rcases hloop : forRange (fun j => (pvals[j]?).bind fun pv => (w[j]?).map fun wj =>
      (wj + 1 / 10 * di * pv, pv * (1 - pv) * (wj + 1 / 10 * di * pv) * di)) w.length
    with _ | pairs
  · rw [hloop] at h; simp at h
  · have hp : w.length ≤ pvals.length := by
      rcases Nat.eq_zero_or_pos w.length with h0 | h0
      · omega
      · have := forRange_isSome _ _ _ hloop (w.length - 1) (by omega)
        rcases hpv : pvals[w.length - 1]? with _ | pv
        · rw [hpv] at this; simp at this
        · have := (isSome_getElem_opt pvals (w.length - 1)).mp (by rw [hpv]; simp)
          omega
    rw [hloop] at h
    by_cases hpd : w.length ≤ pd.length
    · refine ⟨hp, hpd, ?_⟩
      have := backRow_eq di pvals w pd hp hpd
      rw [backRow, hloop] at this
      simp only [hpd, if_true, Option.bind_some, Option.some_bind] at this h ⊢
      rw [h] at this
      exact Option.some_injective _ this
    · simp [hpd] at h

/-! ### Characterization of the backward outer loop -/

/-- Invariants of the outer (`i`) loop after a successful run up to `n`:
the number of rows and the length of `prev_delta` never change, rows not
yet visited are untouched, and every visited row `i` carries the updated
weights `w[j] + 0.1 * delta[i] * prev.values[j]`. -/
theorem backRows_fold {α : Type} [Field α] (pvals delta : List α)
    (ws0 : List (List α)) (pd0 : List α) :
    ∀ n r, foldRange (backRowsStep pvals delta) (ws0, pd0) n = some r →
      r.1.length = ws0.length ∧ r.2.length = pd0.length ∧
      (∀ i, n ≤ i → r.1[i]? = ws0[i]?) ∧
      (∀ i, i < n → ∀ j, j < (ws0.getD i []).length →
        (r.1.getD i []).getD j 0 =
          (ws0.getD i []).getD j 0 + 1 / 10 * delta.getD i 0 * pvals.getD j 0) := by
  intro n
  induction n with
  | zero =>
    intro r h
    rw [foldRange] at h
    cases h
    exact ⟨rfl, rfl, fun _ _ => rfl, fun i hi => absurd hi (Nat.not_lt_zero i)⟩
  | succ m ih =>
    intro r h
    rw [foldRange] at h
    rcases hs : foldRange (backRowsStep pvals delta) (ws0, pd0) m with _ | s
    · rw [hs] at h; simp at h
    · rw [hs] at h
      simp only [Option.some_bind] at h
      obtain ⟨hlen1, hlen2, huntouched, hdone⟩ := ih s hs
      rw [backRowsStep] at h
      rcases hw : s.1[m]? with _ | w
      · rw [hw] at h; simp at h
      · rcases hdi : delta[m]? with _ | di
        · rw [hw, hdi] at h; simp at h
        · rw [hw, hdi] at h
          simp only [Option.some_bind] at h
          rcases hbr : backRow di pvals w s.2 with _ | br
          · rw [hbr] at h; simp at h
          · rw [hbr] at h
            simp only [Option.map_some'] at h
            obtain ⟨hbp, hbpd, hbrval⟩ := backRow_of_eq_some hbr
            have hmlt : m < s.1.length := (isSome_getElem_opt s.1 m).mp (by rw [hw]; simp)
            have hworig : ws0[m]? = some w := by rw [← huntouched m (Nat.le_refl m), hw]
            have hwgetD : ws0.getD m [] = w := getElem_opt_eq_getD ws0 m [] w hworig
            have hdiD : delta.getD m 0 = di := getElem_opt_eq_getD delta m 0 di hdi
            cases h
            refine ⟨?_, ?_, ?_, ?_⟩
            · simp [hlen1]
            · rw [hbrval]
              simp only [List.length_append, List.length_map, List.length_range,
                List.length_drop]
              omega
            · intro i hi
              rw [List.getElem?_set_ne (by omega), huntouched i (by omega)]
            · intro i hi j hj
              rcases Nat.lt_succ_iff_lt_or_eq.mp hi with h' | h'
              · have hne : m ≠ i := by omega
                have : (s.1.set m br.1).getD i [] = s.1.getD i [] := by
                  rw [List.getD_eq_getElem?_getD, List.getD_eq_getElem?_getD,
                    List.getElem?_set_ne hne]
                rw [this]
                exact hdone i h' j hj
              · subst h'
                have hset : (s.1.set i br.1)[i]? = some br.1 := by
                  rw [List.getElem?_set_eq_of_lt br.1 hmlt]
                rw [getElem_opt_eq_getD _ i [] br.1 hset, hbrval]
                rw [hwgetD] at hj
                simp only
                rw [getElem_opt_eq_getD _ j 0 _
                  (by rw [List.getElem?_map, List.getElem?_range hj]; rfl)]
                rw [hwgetD, hdiD]

/-! ### Characterization of the forward neuron loop -/

/-- Closed form of the neuron loop: when the shapes line up, the first
`out_size` activations of the successor are replaced by
`act(dot(weights[i], values) + next.biases[i])` and the remaining ones are
kept. -/
theorem forward_neurons_eq {α : Type} [Field α] (act : α → α) (L N : Layer α)
    (hw : L.out_size ≤ L.weights.length)
    (hrow : ∀ i, i < L.out_size → (L.weights.getD i []).length = L.values.length)
    (hb : L.out_size ≤ N.biases.length) (hv : L.out_size ≤ N.values.length) :
    Layer.forward_neurons act L N = some
      { N with values :=
          ((List.range L.out_size).map fun i =>
            act ((List.zipWith (fun x y => x * y) (L.weights.getD i []) L.values).sum
              + N.biases.getD i 0)) ++ N.values.drop L.out_size } := by
  have hloop := forRange_eq_some
    (fun i => (L.weights[i]?).bind fun w => (dot w L.values).bind fun d =>
        (N.biases[i]?).map fun b => act (d + b))
    (fun i =>
        act ((List.zipWith (fun x y => x * y) (L.weights.getD i []) L.values).sum
          + N.biases.getD i 0))
    L.out_size
    (fun i hi => by
      simp only [getElem_opt_eq_some_getD L.weights i [] (Nat.lt_of_lt_of_le hi hw),
        getElem_opt_eq_some_getD N.biases i 0 (Nat.lt_of_lt_of_le hi hb),
        Option.some_bind, dot, hrow i hi, if_true, Option.map_some'])
  rw [Layer.forward_neurons, hloop]
  simp [hv]

/-! ### Claim theorems -/

/-- C9: propagate_forward on a layer with no successor is a no-op
returning every piece of state it can reach unchanged, and
propagate_backward on a layer with no predecessor is a no-op for every
delta vector.  (The source functions only ever touch the layer they are
called on and the chain on their side of it, which is exactly the state
carried by the embedding.) -/
theorem claim9_terminal_noops :
    ∀ (L : Layer ℝ) (delta : List ℝ),
      Layer.forward_propogate sigmoid L [] = some [L] ∧
      Layer.back_propogate L [] delta = some [L] :=
  fun _ _ => ⟨rfl, rfl⟩

/-- C2: for a layer with a predecessor, the backward pass performs, for
each neuron i of this layer and each j of the predecessor, the weight
update prev.weights[i][j] += 0.1 * delta[i] * prev.values[j] (second
conjunct: the net effect on every weight entry), computes
prev_delta[j] = prev.values[j] * (1 - prev.values[j]) * w * delta[i] with
w the freshly written post-update weight of the same (i, j) step (first
conjunct, about one inner-loop pass), and then recurses on the predecessor
with the resulting prev_delta (third conjunct). -/
theorem claim2_backward_update {α : Type} [Field α] :
    (∀ (di : α) (pvals w pd : List α) (r : List α × List α),
       backRow di pvals w pd = some r → ∀ j, j < w.length →
         r.1[j]? = some (w.getD j 0 + 1 / 10 * di * pvals.getD j 0) ∧
         r.2[j]? = some (pvals.getD j 0 * (1 - pvals.getD j 0) *
           (w.getD j 0 + 1 / 10 * di * pvals.getD j 0) * di)) ∧
    (∀ (P L : Layer α) (delta : List α) (r : Layer α × List α),
       Layer.back_step P L delta = some r → ∀ i, i < L.in_size →
         ∀ j, j < (P.weights.getD i []).length →
           (r.1.weights.getD i []).getD j 0 =
             (P.weights.getD i []).getD j 0 +
               1 / 10 * delta.getD i 0 * P.values.getD j 0) ∧
    (∀ (cur P : Layer α) (rest : List (Layer α)) (delta : List α),
       Layer.back_propogate cur (P :: rest) delta =
         (Layer.back_step P cur delta).bind fun r =>
           (Layer.back_propogate r.1 rest r.2).map fun ch => cur :: ch) := by
  refine ⟨?_, ?_, fun _ _ _ _ => rfl⟩
  · intro di pvals w pd r h j hj
    obtain ⟨hp, hpd, hr⟩ := backRow_of_eq_some h
    subst hr
    constructor
    · simp [List.getElem?_map, List.getElem?_range hj]
    · rw [List.getElem?_append_left (by simpa using hj)]
      simp [List.getElem?_map, List.getElem?_range hj]
  · intro P L delta r h i hi j hj
    rw [Layer.back_step] at h
    rcases hs : foldRange (backRowsStep P.values delta)
        (P.weights, List.replicate P.in_size 0) L.in_size with _ | s
    · rw [hs] at h; simp at h
    · rw [hs] at h
      simp only [Option.map_some'] at h
      obtain ⟨_, _, _, hdone⟩ := backRows_fold P.values delta P.weights
        (List.replicate P.in_size 0) L.in_size s hs
      cases h
      exact hdone i hi j hj

/-- Witness for C2 at a concrete one-neuron step: predecessor activations
[1], row [0], delta [1]; the updated row is [1/10] and prev_delta is [0],
matching both formulas with the post-update weight. -/
theorem claim2_witness :
    backRow (1 : ℚ) [1] [0] [0] = some ([1 / 10], [0]) ∧
    (([1 / 10] : List ℚ)[0]? = some ((0 : ℚ) + 1 / 10 * 1 * 1) ∧
     ([(0 : ℚ)] : List ℚ)[0]? =
       some ((1 : ℚ) * (1 - 1) * (0 + 1 / 10 * 1 * 1) * 1)) ∧
    Layer.back_step (⟨[1], [0], [[0]], 1, 1⟩ : Layer ℚ) ⟨[1], [0], [], 1, 0⟩ [1] =
      some (⟨[1], [0], [[1 / 10]], 1, 1⟩, [0]) ∧
    (1 / 10 : ℚ) = 0 + 1 / 10 * 1 * 1 := by
  have h1 : backRow (1 : ℚ) [1] [0] [0] = some ([1 / 10], [0]) := by
    norm_num [backRow, forRange]
  have h2 : Layer.back_step (⟨[1], [0], [[0]], 1, 1⟩ : Layer ℚ) ⟨[1], [0], [], 1, 0⟩ [1] =
      some (⟨[1], [0], [[1 / 10]], 1, 1⟩, [0]) := by
    norm_num [Layer.back_step, foldRange, backRowsStep, backRow, forRange]
  refine ⟨h1, claim2_backward_update.1 1 [1] [0] [0] _ h1 0 (by norm_num), h2, ?_⟩
  exact claim2_backward_update.2.1 ⟨[1], [0], [[0]], 1, 1⟩ ⟨[1], [0], [], 1, 0⟩ [1]
    (⟨[1], [0], [[1 / 10]], 1, 1⟩, [0]) h2 0 (by norm_num) 0 (by norm_num)

/-- C5: with the section 3 shapes (every weight row of the predecessor has
length prev.in_size = length of prev_delta) and in_size ≥ 2, the
prev_delta handed to the recursive call is determined by the final outer
iteration i = in_size - 1 alone: every entry is the derivative formula
taken at index in_size - 1 (with that row's fresh post-update weight); the
contributions of every earlier i have been overwritten. -/
theorem claim5_last_iteration_delta {α : Type} [Field α] (P L : Layer α)
    (delta : List α) (r : Layer α × List α)
    (hrows : ∀ w ∈ P.weights, w.length = P.in_size)
    (hn : 2 ≤ L.in_size)
    (h : Layer.back_step P L delta = some r) :
    r.2.length = P.in_size ∧
    ∀ j, j < P.in_size →
      r.2.getD j 0 =
        P.values.getD j 0 * (1 - P.values.getD j 0) *
          ((P.weights.getD (L.in_size - 1) []).getD j 0 +
            1 / 10 * delta.getD (L.in_size - 1) 0 * P.values.getD j 0) *
          delta.getD (L.in_size - 1) 0 := by
  obtain ⟨m, hm⟩ : ∃ m, L.in_size = m + 1 := ⟨L.in_size - 1, by omega⟩
  have hm1 : L.in_size - 1 = m := by omega
  rw [Layer.back_step, hm] at h
  rw [foldRange] at h
  rcases hs : foldRange (backRowsStep P.values delta)
      (P.weights, List.replicate P.in_size 0) m with _ | s0
  · rw [hs] at h; simp at h
  · rw [hs] at h
    simp only [Option.some_bind] at h
    obtain ⟨hlen1, hlen2, huntouched, -⟩ := backRows_fold P.values delta P.weights
      (List.replicate P.in_size 0) m s0 hs
    rw [backRowsStep] at h
    rcases hw : s0.1[m]? with _ | w
    · rw [hw] at h; simp at h
    · rcases hdi : delta[m]? with _ | di
      · rw [hw, hdi] at h; simp at h
      · rw [hw, hdi] at h
        simp only [Option.some_bind] at h
        rcases hbr : backRow di P.values w s0.2 with _ | br
        · rw [hbr] at h; simp at h
        · rw [hbr] at h
          simp only [Option.map_some', Option.some_bind] at h
          obtain ⟨hp, hpd, hbrval⟩ := backRow_of_eq_some hbr
          have hworig : P.weights[m]? = some w := by
            rw [← huntouched m (Nat.le_refl m), hw]
          have hwgetD : P.weights.getD m [] = w := getElem_opt_eq_getD P.weights m [] w hworig
          have hdiD : delta.getD m 0 = di := getElem_opt_eq_getD delta m 0 di hdi
          have hmem : w ∈ P.weights := by
            have : m < P.weights.length := (isSome_getElem_opt P.weights m).mp
              (by rw [hworig]; simp)
            rw [← hwgetD, List.getD_eq_getElem P.weights [] this]
            exact List.getElem_mem this
          have hwlen : w.length = P.in_size := hrows w hmem
          have hs02 : s0.2.length = P.in_size := by
            rw [hlen2]; simp
          have hdrop : s0.2.drop w.length = [] := by
            rw [hwlen, ← hs02, List.drop_length]
          cases h
          rw [hbrval]
          simp only [hdrop, List.append_nil, hm1, hwgetD, hdiD]
          constructor
          · simp [hwlen]
          · intro j hj
            rw [getElem_opt_eq_getD _ j 0 _
              (by rw [List.getElem?_map, List.getElem?_range (by omega : j < w.length)]; rfl)]

/-- Witness for C5: predecessor with one neuron (activation 1/2) and two
rows [2], [3]; delta [1, 2].  The final prev_delta [31/20] is exactly the
formula at the last index i = 1 (row [3], delta 2); the i = 0 contribution
41/80 has been discarded. -/
theorem claim5_witness :
    Layer.back_step (⟨[1 / 2], [0], [[2], [3]], 1, 2⟩ : Layer ℚ)
        ⟨[0, 0], [0, 0], [], 2, 0⟩ [1, 2] =
      some (⟨[1 / 2], [0], [[41 / 20], [31 / 10]], 1, 2⟩, [31 / 20]) ∧
    ([(31 / 20 : ℚ)].length = 1 ∧
     (31 / 20 : ℚ) = 1 / 2 * (1 - 1 / 2) * (3 + 1 / 10 * 2 * (1 / 2)) * 2) := by
  have h : Layer.back_step (⟨[1 / 2], [0], [[2], [3]], 1, 2⟩ : Layer ℚ)
      ⟨[0, 0], [0, 0], [], 2, 0⟩ [1, 2] =
      some (⟨[1 / 2], [0], [[41 / 20], [31 / 10]], 1, 2⟩, [31 / 20]) := by
    norm_num [Layer.back_step, foldRange, backRowsStep, backRow, forRange]
  refine ⟨h, ?_, ?_⟩
  · exact (claim5_last_iteration_delta _ _ _ _ (by simp) (by norm_num) h).1
  · exact (claim5_last_iteration_delta _ _ _ _ (by simp) (by norm_num) h).2 0 (by norm_num)

/-- A successful backward step changes nothing of the predecessor except
its weight matrix. -/
theorem back_step_frame {α : Type} [Field α] {P L : Layer α} {delta : List α}
    {r : Layer α × List α} (h : Layer.back_step P L delta = some r) :
    r.1.values = P.values ∧ r.1.biases = P.biases ∧
      r.1.in_size = P.in_size ∧ r.1.out_size = P.out_size := by
  rw [Layer.back_step] at h
  rcases hs : foldRange (backRowsStep P.values delta)
      (P.weights, List.replicate P.in_size 0) L.in_size with _ | s
  · rw [hs] at h; simp at h
  · rw [hs] at h
    simp only [Option.map_some'] at h
    cases h
    exact ⟨rfl, rfl, rfl, rfl⟩

/-- A successful backward traversal leaves the bias vector of every layer
it visits unchanged. -/
theorem back_propogate_biases {α : Type} [Field α] :
    ∀ (prevs : List (Layer α)) (cur : Layer α) (delta : List α)
      (ch : List (Layer α)),
      Layer.back_propogate cur prevs delta = some ch →
      ch.map Layer.biases = (cur :: prevs).map Layer.biases := by
  intro prevs
  induction prevs with
  | nil =>
    intro cur delta ch h
    rw [Layer.back_propogate] at h
    cases h
    rfl
  | cons P rest ih =>
    intro cur delta ch h
    rw [Layer.back_propogate] at h
    rcases hs : Layer.back_step P cur delta with _ | r
    · rw [hs] at h; simp at h
    · rw [hs] at h
      simp only [Option.some_bind] at h
      rcases hrec : Layer.back_propogate r.1 rest r.2 with _ | ch2
      · rw [hrec] at h; simp at h
      · rw [hrec] at h
        simp only [Option.map_some'] at h
        cases h
        have hb := (back_step_frame hs).2.1
        have := ih r.1 r.2 ch2 hrec
        simp only [List.map_cons] at this ⊢
        rw [this, hb]

/-- C6 (amended): bias vectors are zero-filled by the constructor and are
never written again: init_weights only rebuilds weights, a backward step
only rewrites the predecessor's weight matrix, and a whole backward pass
(layer-level or network-level) maps every layer to a layer with an
identical bias vector. -/
theorem claim6_biases_never_mutated {α : Type} [Field α] :
    (∀ n m : Nat, (Layer.new (α := α) n m).biases = List.replicate n 0) ∧
    (∀ (draws : Nat → Nat → α) (b : Bool) (L : Layer α),
       (Layer.init_weights draws b L).biases = L.biases) ∧
    (∀ (P L : Layer α) (delta : List α) (r : Layer α × List α),
       Layer.back_step P L delta = some r → r.1.biases = P.biases) ∧
    (∀ (cur : Layer α) (prevs : List (Layer α)) (delta : List α)
       (ch : List (Layer α)),
       Layer.back_propogate cur prevs delta = some ch →
       ch.map Layer.biases = (cur :: prevs).map Layer.biases) ∧
    (∀ (net net2 : CNN α) (labels : List α),
       CNN.back_propogate net labels = some net2 →
       net2.layers.map Layer.biases = net.layers.map Layer.biases) := by
  refine ⟨fun _ _ => rfl, ?_, ?_, ?_, ?_⟩
  · intro draws b L
    rw [Layer.init_weights]
    cases b <;> simp
  · intro P L delta r h
    exact (back_step_frame h).2.1
  · intro cur prevs delta ch h
    exact back_propogate_biases prevs cur delta ch h
  · intro net net2 labels h
    rw [CNN.back_propogate] at h
    rcases hrev : net.layers.reverse with _ | ⟨T, prevs⟩
    · rw [hrev] at h; simp at h
    · rw [hrev] at h
      replace h : (forRange (fun i => (T.values[i]?).bind fun tv =>
          (labels[i]?).map fun li => tv * (1 - tv) * (li - tv)) T.in_size).bind
            (fun delta => (Layer.back_propogate T prevs delta).map fun ch =>
              CNN.mk ch.reverse) = some net2 := h
      rcases hdl : forRange (fun i => (T.values[i]?).bind fun tv =>
          (labels[i]?).map fun li => tv * (1 - tv) * (li - tv)) T.in_size with _ | delta
      · rw [hdl] at h; simp at h
      · rw [hdl] at h
        simp only [Option.some_bind] at h
        rcases hbp : Layer.back_propogate T prevs delta with _ | ch
        · rw [hbp] at h; simp at h
        · rw [hbp] at h
          simp only [Option.map_some'] at h
          cases h
          have := back_propogate_biases prevs T delta ch hbp
          simp only
          rw [List.map_reverse, this, ← hrev]
          simp [List.map_reverse]

/-- Witness for C6 at a concrete one-layer network: the backward pass
succeeds and returns a network whose (zero) biases are untouched. -/
theorem claim6_witness :
    CNN.back_propogate (⟨[⟨[1 / 2], [0], [], 1, 0⟩]⟩ : CNN ℚ) [1] =
      some (⟨[⟨[1 / 2], [0], [], 1, 0⟩]⟩ : CNN ℚ) ∧
    (CNN.mk [⟨[1 / 2], [0], [], 1, 0⟩] : CNN ℚ).layers.map Layer.biases =
      (CNN.mk [⟨[1 / 2], [0], [], 1, 0⟩] : CNN ℚ).layers.map Layer.biases := by
  have h : CNN.back_propogate (⟨[⟨[1 / 2], [0], [], 1, 0⟩]⟩ : CNN ℚ) [1] =
      some (⟨[⟨[1 / 2], [0], [], 1, 0⟩]⟩ : CNN ℚ) := by
    norm_num [CNN.back_propogate, forRange, Layer.back_propogate]
  exact ⟨h, claim6_biases_never_mutated.2.2.2.2 _ _ [1] h⟩

/-- Counterexample to C6 as stated: a concrete initialization that writes
only weights (biases stay at their constructed zeros), and a concrete
backward step that does change a weight yet changes no bias. -/
theorem claim6_counterexample :
    (Layer.init_weights (fun _ _ => (7 : ℚ)) true (Layer.new 2 1)).biases =
      List.replicate 2 (0 : ℚ) ∧
    Layer.back_step (⟨[1 / 2], [0], [[2], [3]], 1, 2⟩ : Layer ℚ)
        ⟨[0, 0], [0, 0], [], 2, 0⟩ [1, 2] =
      some (⟨[1 / 2], [0], [[41 / 20], [31 / 10]], 1, 2⟩, [31 / 20]) ∧
    (⟨[1 / 2], [0], [[41 / 20], [31 / 10]], 1, 2⟩ : Layer ℚ).biases =
      (⟨[1 / 2], [0], [[2], [3]], 1, 2⟩ : Layer ℚ).biases ∧
    (⟨[1 / 2], [0], [[41 / 20], [31 / 10]], 1, 2⟩ : Layer ℚ).weights ≠
      (⟨[1 / 2], [0], [[2], [3]], 1, 2⟩ : Layer ℚ).weights := by
  refine ⟨rfl, ?_, rfl, ?_⟩
  · norm_num [Layer.back_step, foldRange, backRowsStep, backRow, forRange]
  · simp only [ne_eq, List.cons.injEq]
    norm_num

/-- C3: on a non-empty network whose labels match the tail's neuron count
(and whose tail has at least in_size stored activations, as the data model
guarantees), the network backward pass builds the initial delta
delta[i] = tail.values[i] * (1 - tail.values[i]) * (labels[i] - tail.values[i])
and invokes the tail's propagate_backward with exactly that vector. -/
theorem claim3_initial_delta {α : Type} [Field α] (front : List (Layer α))
    (T : Layer α) (net : CNN α) (labels : List α)
    (hnet : net.layers = front ++ [T])
    (hlen : labels.length = T.in_size)
    (hv : T.in_size ≤ T.values.length) :
    CNN.back_propogate net labels =
      (Layer.back_propogate T front.reverse
         ((List.range T.in_size).map fun i =>
            T.values.getD i 0 * (1 - T.values.getD i 0) *
              (labels.getD i 0 - T.values.getD i 0))).map fun ch =>
        CNN.mk ch.reverse := by
  have hrev : net.layers.reverse = T :: front.reverse := by
    rw [hnet]; simp
  have e1 : CNN.back_propogate net labels =
      (forRange (fun i => (T.values[i]?).bind fun tv =>
          (labels[i]?).map fun li => tv * (1 - tv) * (li - tv)) T.in_size).bind
        (fun delta => (Layer.back_propogate T front.reverse delta).map fun ch =>
          CNN.mk ch.reverse) := by
    rw [CNN.back_propogate, hrev]
  rw [e1, forRange_eq_some _
    (fun i => T.values.getD i 0 * (1 - T.values.getD i 0) *
      (labels.getD i 0 - T.values.getD i 0)) T.in_size
    (fun i hi => by
      simp only [getElem_opt_eq_some_getD T.values i 0 (Nat.lt_of_lt_of_le hi hv),
        getElem_opt_eq_some_getD labels i 0 (by omega),
        Option.some_bind, Option.map_some'])]
  simp only [Option.some_bind]

/-- Witness for C3 at a one-layer network (tail activation 1/2, label 1). -/
theorem claim3_witness :
    CNN.back_propogate (⟨[⟨[1 / 2], [0], [], 1, 0⟩]⟩ : CNN ℚ) [1] =
      (Layer.back_propogate (⟨[1 / 2], [0], [], 1, 0⟩ : Layer ℚ) []
         ((List.range 1).map fun i =>
            ([(1 / 2 : ℚ)]).getD i 0 * (1 - ([(1 / 2 : ℚ)]).getD i 0) *
              (([(1 : ℚ)]).getD i 0 - ([(1 / 2 : ℚ)]).getD i 0))).map fun ch =>
        CNN.mk ch.reverse :=
  claim3_initial_delta [] ⟨[1 / 2], [0], [], 1, 0⟩ _ [1] rfl rfl (by norm_num)

/-- C4 (amended): the network backward pass performs no length check on
labels.  It reads labels[i] for every i below the tail's neuron count:
with fewer labels than neurons the read is out of range (the run has no
defined result, modelled none — no ShapeMismatch is reported), and with
more labels than neurons the surplus entries are silently ignored and the
pass proceeds normally. -/
theorem claim4_no_length_check {α : Type} [Field α] (front : List (Layer α))
    (T : Layer α) (net : CNN α) (labels : List α)
    (hnet : net.layers = front ++ [T]) :
    (labels.length < T.in_size → CNN.back_propogate net labels = none) ∧
    CNN.back_propogate net labels = CNN.back_propogate net (labels.take T.in_size) := by
  have hrev : net.layers.reverse = T :: front.reverse := by
    rw [hnet]; simp
  have e1 : ∀ lbl : List α, CNN.back_propogate net lbl =
      (forRange (fun i => (T.values[i]?).bind fun tv =>
          (lbl[i]?).map fun li => tv * (1 - tv) * (li - tv)) T.in_size).bind
        (fun delta => (Layer.back_propogate T front.reverse delta).map fun ch =>
          CNN.mk ch.reverse) := by
    intro lbl
    rw [CNN.back_propogate, hrev]
  constructor
  · intro hlt
    rw [e1 labels, forRange_eq_none _ labels.length
      (by
        rw [List.getElem?_eq_none (Nat.le_refl labels.length)]
        rcases T.values[labels.length]? with _ | tv <;> simp)
      T.in_size hlt]
    rfl
  · rw [e1 labels, e1 (labels.take T.in_size),
      forRange_congr _ (fun i => (T.values[i]?).bind fun tv =>
          ((labels.take T.in_size)[i]?).map fun li => tv * (1 - tv) * (li - tv))
        T.in_size
        (fun i hi => by
          simp [List.getElem?_take, hi])]

/-- Witness for C4: on a concrete one-neuron network, an empty labels
vector makes the pass undefined (out-of-range read, not an error report),
and a two-entry labels vector behaves exactly like its one-entry
truncation. -/
theorem claim4_witness :
    CNN.back_propogate (⟨[⟨[1 / 2], [0], [], 1, 0⟩]⟩ : CNN ℚ) ([] : List ℚ) = none ∧
    CNN.back_propogate (⟨[⟨[1 / 2], [0], [], 1, 0⟩]⟩ : CNN ℚ) [1, 7] =
      CNN.back_propogate (⟨[⟨[1 / 2], [0], [], 1, 0⟩]⟩ : CNN ℚ) ([1, 7].take 1) :=
  ⟨(claim4_no_length_check [] ⟨[1 / 2], [0], [], 1, 0⟩ _ [] rfl).1 (by norm_num),
   (claim4_no_length_check [] ⟨[1 / 2], [0], [], 1, 0⟩ _ [1, 7] rfl).2⟩

/-- Counterexample to C4 as stated: on a concrete non-empty network whose
tail has 1 neuron, a labels vector of the wrong length 2 does not make the
backward pass fail — it succeeds (and, tail being also the head, performs
its no-op traversal). -/
theorem claim4_counterexample :
    (CNN.back_propogate (⟨[⟨[1 / 2], [0], [], 1, 0⟩]⟩ : CNN ℚ) [1, 7]).isSome = true := by
  simp [CNN.back_propogate, forRange, Layer.back_propogate]

/-- C1 (amended): for a layer with a successor, propagate_forward sets, for
each neuron i of the next layer,
next.activations[i] = sigmoid(dot(weights[i], this.activations) + next.biases[i])
— the bias added is the one stored on the successor layer itself (indexed
inside its own bias vector), not this.biases[i] — and then recurses on the
successor. -/
theorem claim1_forward_bias_from_next (L N : Layer ℝ) (rest : List (Layer ℝ))
    (hw : L.out_size ≤ L.weights.length)
    (hrow : ∀ i, i < L.out_size → (L.weights.getD i []).length = L.values.length)
    (hb : L.out_size ≤ N.biases.length)
    (hv : L.out_size ≤ N.values.length) :
    ∃ N2, Layer.forward_neurons sigmoid L N = some N2 ∧
      (∀ i, i < L.out_size → ∀ d, dot (L.weights.getD i []) L.values = some d →
        N2.values[i]? = some (sigmoid (d + N.biases.getD i 0))) ∧
      Layer.forward_propogate sigmoid L (N :: rest) =
        (Layer.forward_propogate sigmoid N2 rest).map fun ch => L :: ch := by
  have heq := forward_neurons_eq sigmoid L N hw hrow hb hv
  refine ⟨_, heq, ?_, ?_⟩
  · intro i hi d hd
    rw [dot, if_pos (hrow i hi)] at hd
    simp only
    rw [List.getElem?_append_left (by simpa using hi), List.getElem?_map,
      List.getElem?_range hi]
    cases hd
    rfl
  · rw [Layer.forward_propogate, heq]
    simp only [Option.some_bind]

/-- Witness for C1 at a concrete two-layer chain: one input neuron
(activation 0, weight 0), one output neuron with successor-stored bias 0. -/
theorem claim1_witness :
    ∃ N2, Layer.forward_neurons sigmoid (⟨[0], [5], [[0]], 1, 1⟩ : Layer ℝ)
        ⟨[0], [0], [], 1, 0⟩ = some N2 ∧
      (∀ i, i < 1 → ∀ d,
        dot ((⟨[0], [5], [[0]], 1, 1⟩ : Layer ℝ).weights.getD i []) [0] = some d →
        N2.values[i]? =
          some (sigmoid (d + ((⟨[0], [0], [], 1, 0⟩ : Layer ℝ)).biases.getD i 0))) ∧
      Layer.forward_propogate sigmoid (⟨[0], [5], [[0]], 1, 1⟩ : Layer ℝ)
          [⟨[0], [0], [], 1, 0⟩] =
        (Layer.forward_propogate sigmoid N2 []).map fun ch =>
          (⟨[0], [5], [[0]], 1, 1⟩ : Layer ℝ) :: ch :=
  claim1_forward_bias_from_next ⟨[0], [5], [[0]], 1, 1⟩ ⟨[0], [0], [], 1, 0⟩ []
    (by norm_num) (fun i hi => by interval_cases i; simp) (by norm_num) (by norm_num)

/-- Counterexample to C1 as stated: a two-layer chain where the upstream
layer stores bias 5 and the downstream layer stores bias 0 at index 0.
The code computes sigmoid(dot + next.biases[0]) = sigmoid(0 + 0), which
differs from the claimed sigmoid(dot + this.biases[0]) = sigmoid(0 + 5). -/
theorem claim1_counterexample :
    dot [(0 : ℝ)] [(0 : ℝ)] = some 0 ∧
    (⟨[0], [5], [[0]], 1, 1⟩ : Layer ℝ).biases.getD 0 0 = 5 ∧
    ((Layer.forward_propogate sigmoid (⟨[0], [5], [[0]], 1, 1⟩ : Layer ℝ)
        [⟨[0], [0], [], 1, 0⟩]).bind fun ch => ch[1]?.bind fun N => N.values[0]?) =
      some (sigmoid (0 + 0)) ∧
    sigmoid (0 + 0) ≠ sigmoid (0 + 5) := by
  have hlt : sigmoid 0 < sigmoid 5 := by
    rw [sigmoid, sigmoid]
    have h1 : Real.exp (-5) < Real.exp (-0) := Real.exp_lt_exp.mpr (by norm_num)
    exact one_div_lt_one_div_of_lt (by positivity) (by linarith)
  refine ⟨?_, rfl, ?_, ?_⟩
  · rw [dot]
    norm_num
  · simp [Layer.forward_propogate, Layer.forward_neurons, forRange, dot]
  · intro h
    rw [zero_add, zero_add] at h
    exact absurd h (ne_of_lt hlt)

/-- Under the shape invariant the neuron loop into the successor succeeds
and preserves every field of the successor except the refreshed prefix of
its activation vector (whose length it preserves). -/
theorem forward_neurons_wf {α : Type} [Field α] (act : α → α) (L N : Layer α)
    (hwf : layerWFB L = true)
    (hwlen : L.weights.length = L.out_size)
    (hrows : ∀ w ∈ L.weights, w.length = L.in_size)
    (hNwf : layerWFB N = true)
    (hNin : N.in_size = L.out_size) :
    ∃ N2, Layer.forward_neurons act L N = some N2 ∧
      N2.values.length = N.values.length ∧ N2.biases = N.biases ∧
      N2.weights = N.weights ∧ N2.in_size = N.in_size ∧ N2.out_size = N.out_size := by
  simp only [layerWFB, Bool.and_eq_true, beq_iff_eq] at hwf hNwf
  have hv : N.values.length = L.out_size := by rw [hNwf.1, hNin]
  have hb : N.biases.length = L.out_size := by rw [hNwf.2, hNin]
  have heq := forward_neurons_eq act L N (Nat.le_of_eq hwlen.symm)
    (fun i hi => by
      rw [hwf.1]
      refine hrows _ ?_
      have hilt : i < L.weights.length := by omega
      rw [List.getD_eq_getElem L.weights [] hilt]
      exact List.getElem_mem hilt)
    (Nat.le_of_eq hb.symm) (Nat.le_of_eq hv.symm)
  refine ⟨_, heq, ?_, rfl, rfl, rfl, rfl⟩
  simp only [List.length_append, List.length_map, List.length_range, List.length_drop]
  omega

/-- Under the shape invariant, the forward traversal never fails: in
particular no dot call made along the way ever takes its mismatch branch
(a dot failure at any layer would propagate to a failure of the whole
traversal). -/
theorem forward_propogate_isSome {α : Type} [Field α] (act : α → α) :
    ∀ (rest : List (Layer α)) (L : Layer α), chainInvB (L :: rest) = true →
      (Layer.forward_propogate act L rest).isSome = true := by
  intro rest
  induction rest with
  | nil => intro L _; rfl
  | cons N rest2 ih =>
    intro L hinv
    rw [chainInvB] at hinv
    simp only [Bool.and_eq_true, beq_iff_eq, List.all_eq_true] at hinv
    obtain ⟨⟨⟨⟨hwf, hwlen⟩, hrows⟩, hNin⟩, hrest⟩ := hinv
    have hNwf : layerWFB N = true := by
      cases rest2 with
      | nil => rw [chainInvB] at hrest; exact hrest
      | cons M rest3 =>
        rw [chainInvB] at hrest
        simp only [Bool.and_eq_true] at hrest
        exact hrest.1.1.1.1
    obtain ⟨N2, heq, hlen, hbias, hwts, hin, hout⟩ :=
      forward_neurons_wf act L N hwf hwlen
        (fun w hw => by simpa using hrows w hw) hNwf hNin
    have hinv2 : chainInvB (N2 :: rest2) = true := by
      cases rest2 with
      | nil =>
        rw [chainInvB] at hrest ⊢
        simp only [layerWFB, Bool.and_eq_true, beq_iff_eq] at hrest ⊢
        rw [hlen, hbias, hin]
        exact hrest
      | cons M rest3 =>
        rw [chainInvB] at hrest ⊢
        simp only [layerWFB, Bool.and_eq_true, beq_iff_eq] at hrest ⊢
        rw [hlen, hbias, hin, hwts, hout]
        exact hrest
    rw [Layer.forward_propogate, heq]
    simp only [Option.some_bind, Option.isSome_map']
    exact ih N2 hinv2

/-- C8: dot fails exactly when the two vector lengths differ, and under
the section 3 shape invariant a forward traversal (layer-level or
network-level on a non-empty network) never fails — so in particular no
dot call made during propagate_forward ever reaches its failure branch. -/
theorem claim8_dot_mismatch_and_forward_safety :
    (∀ a b : List ℝ, dot a b = none ↔ a.length ≠ b.length) ∧
    (∀ (L : Layer ℝ) (rest : List (Layer ℝ)), chainInvB (L :: rest) = true →
      (Layer.forward_propogate sigmoid L rest).isSome = true) ∧
    (∀ net : CNN ℝ, net.layers ≠ [] → chainInvB net.layers = true →
      (CNN.forward_propogate sigmoid net).isSome = true) := by
  refine ⟨?_, fun L rest => forward_propogate_isSome sigmoid rest L, ?_⟩
  · intro a b
    by_cases h : a.length = b.length <;> simp [dot, h]
  · intro net hne hinv
    rcases hl : net.layers with _ | ⟨L, rest⟩
    · exact absurd hl hne
    · rw [hl] at hinv
      rw [CNN.forward_propogate, hl]
      simp only [Option.isSome_map']
      exact forward_propogate_isSome sigmoid rest L hinv

/-- Witness for C8 on a concrete well-shaped two-layer chain
(2 neurons feeding 1): the invariant holds and the traversal succeeds. -/
theorem claim8_witness :
    chainInvB [(⟨[0, 0], [0, 0], [[0, 0]], 2, 1⟩ : Layer ℝ), ⟨[0], [0], [], 1, 0⟩] = true ∧
    (Layer.forward_propogate sigmoid (⟨[0, 0], [0, 0], [[0, 0]], 2, 1⟩ : Layer ℝ)
      [⟨[0], [0], [], 1, 0⟩]).isSome = true :=
  ⟨by decide, claim8_dot_mismatch_and_forward_safety.2.1
    ⟨[0, 0], [0, 0], [[0, 0]], 2, 1⟩ [⟨[0], [0], [], 1, 0⟩] (by decide)⟩

theorem getD_set_self (l : List β) (i : Nat) (v d : β) (h : i < l.length) :
    (l.set i v).getD i d = v := by
  rw [List.getD_eq_getElem?_getD, List.getElem?_set_eq_of_lt v h]
  rfl

theorem getD_set_other (l : List β) (i j : Nat) (v d : β) (h : i ≠ j) :
    (l.set i v).getD j d = l.getD j d := by
  rw [List.getD_eq_getElem?_getD, List.getElem?_set_ne h, ← List.getD_eq_getElem?_getD]

/-- C7 (amended): add_tail performs no topology check whatsoever.  Called
on a layer a with new tail b (distinct, both in the store) it
unconditionally sets a.next := b and b.prev := a — silently overwriting
whatever adjacency was there — while a.prev, b.next and every other layer
are left untouched, and no failure of any kind is reported. -/
theorem claim7_silent_overwrite (st : Store) (a b : Nat)
    (ha : a < st.layers.length) (hb : b < st.layers.length) (hab : a ≠ b) :
    ((add_tail st a b).layers.getD a ⟨none, none⟩).next = some b ∧
    ((add_tail st a b).layers.getD a ⟨none, none⟩).prev =
      (st.layers.getD a ⟨none, none⟩).prev ∧
    ((add_tail st a b).layers.getD b ⟨none, none⟩).prev = some a ∧
    ((add_tail st a b).layers.getD b ⟨none, none⟩).next =
      (st.layers.getD b ⟨none, none⟩).next ∧
    (∀ c, c ≠ a → c ≠ b →
      (add_tail st a b).layers.getD c ⟨none, none⟩ =
        st.layers.getD c ⟨none, none⟩) ∧
    (add_tail st a b).layers.length = st.layers.length := by
  have hmid : ∀ j, a ≠ j →
      (st.update a fun l => { l with next := some b }).layers.getD j ⟨none, none⟩ =
        st.layers.getD j ⟨none, none⟩ :=
    fun j hj => getD_set_other st.layers a j _ ⟨none, none⟩ hj
  have hmidlen : (st.update a fun l => { l with next := some b }).layers.length =
      st.layers.length := by
    simp [Store.update]
  refine ⟨?_, ?_, ?_, ?_, ?_, ?_⟩
  · rw [add_tail, Store.update, getD_set_other _ b a _ _ (Ne.symm hab),
      Store.update, getD_set_self _ a _ _ ha]
  · rw [add_tail, Store.update, getD_set_other _ b a _ _ (Ne.symm hab),
      Store.update, getD_set_self _ a _ _ ha]
  · rw [add_tail, Store.update, getD_set_self _ b _ _ (by rw [hmidlen]; exact hb),
      hmid b hab]
  · rw [add_tail, Store.update, getD_set_self _ b _ _ (by rw [hmidlen]; exact hb),
      hmid b hab]
  · intro c hca hcb
    rw [add_tail, Store.update, getD_set_other _ b c _ _ (Ne.symm hcb), hmid c (Ne.symm hca)]
  · simp [add_tail, Store.update]

/-- Witness for C7 on a concrete three-layer store with 0 already linked
to 1: re-wiring 0 to 2 yields the overwritten links. -/
theorem claim7_witness :
    ((add_tail ⟨[⟨none, some 1⟩, ⟨some 0, none⟩, ⟨none, none⟩]⟩ 0 2).layers.getD 0
        ⟨none, none⟩).next = some 2 ∧
    ((add_tail ⟨[⟨none, some 1⟩, ⟨some 0, none⟩, ⟨none, none⟩]⟩ 0 2).layers.getD 2
        ⟨none, none⟩).prev = some 0 :=
  ⟨(claim7_silent_overwrite ⟨[⟨none, some 1⟩, ⟨some 0, none⟩, ⟨none, none⟩]⟩ 0 2
      (by decide) (by decide) (by decide)).1,
   (claim7_silent_overwrite ⟨[⟨none, some 1⟩, ⟨some 0, none⟩, ⟨none, none⟩]⟩ 0 2
      (by decide) (by decide) (by decide)).2.2.1⟩

/-- Counterexample to C7 as stated: layer 0 already has successor 1, yet
calling add_tail on it again with layer 2 does not fail — it silently
replaces the adjacency 0 → 1 by 0 → 2. -/
theorem claim7_counterexample :
    ((⟨[⟨none, some 1⟩, ⟨some 0, none⟩, ⟨none, none⟩]⟩ : Store).layers.getD 0
        ⟨none, none⟩).next = some 1 ∧
    ((add_tail ⟨[⟨none, some 1⟩, ⟨some 0, none⟩, ⟨none, none⟩]⟩ 0 2).layers.getD 0
        ⟨none, none⟩).next = some 2 := by
  decide

/-- Invariant of the append loop: after appending layers 0, ..., k-1 of a
fresh store of n layers, the owned sequence is exactly [0, ..., k-1], the
store size is unchanged, and the prev/next pointers form the straight-line
chain on 0, ..., k-1 with everything else still null. -/
theorem buildChain_inv (n : Nat) :
    ∀ k, k ≤ n →
      ∀ st net,
        (List.range k).foldl (fun p i => netAdd p.1 p.2 i) (freshStore n, []) = (st, net) →
        net = List.range k ∧ st.layers.length = n ∧
        (∀ j, j < n →
          (st.layers.getD j ⟨none, none⟩).next =
            (if j + 1 < k then some (j + 1) else none) ∧
          (st.layers.getD j ⟨none, none⟩).prev =
            (if 0 < j ∧ j < k then some (j - 1) else none)) := by
  intro k
  induction k with
  | zero =>
    intro _ st net h
    rw [List.range_zero, List.foldl_nil] at h
    cases h
    refine ⟨rfl, by simp [freshStore], ?_⟩
    intro j hj
    have hD : (freshStore n).layers.getD j ⟨none, none⟩ = (⟨none, none⟩ : PtrLayer) := by
      rw [freshStore]
      rw [List.getD_eq_getElem?_getD, List.getElem?_replicate, if_pos (by simpa using hj)]
      rfl
    rw [hD]
    simp
  | succ k ih =>
    intro hk st net h
    rw [List.range_succ, List.foldl_append, List.foldl_cons, List.foldl_nil] at h
    rcases h0 : (List.range k).foldl (fun p i => netAdd p.1 p.2 i) (freshStore n, [])
      with ⟨st0, net0⟩
    rw [h0] at h
    obtain ⟨hnet0, hlen0, hlinks0⟩ := ih (by omega) st0 net0 h0
    subst hnet0
    replace h : netAdd st0 (List.range k) k = (st, net) := h
    rcases Nat.eq_zero_or_pos k with hk0 | hkpos
    · subst hk0
      replace h : (st0, [0]) = (st, net) := h
      cases h
      refine ⟨by decide, hlen0, ?_⟩
      intro j hj
      obtain ⟨hn, hp⟩ := hlinks0 j hj
      constructor
      · rw [hn, if_neg (by omega : ¬j + 1 < 0), if_neg (by omega : ¬j + 1 < 0 + 1)]
      · rw [hp, if_neg (by omega : ¬(0 < j ∧ j < 0)),
          if_neg (by omega : ¬(0 < j ∧ j < 0 + 1))]
    · have hlast : (List.range k).getLast? = some (k - 1) := by
        obtain ⟨m, hm⟩ : ∃ m, k = m + 1 := ⟨k - 1, by omega⟩
        rw [hm, List.range_succ, List.getLast?_concat]
        simp [hm]
      rw [netAdd, hlast] at h
      replace h : (add_tail st0 (k - 1) k, List.range k ++ [k]) = (st, net) := h
      cases h
      refine ⟨(List.range_succ k).symm, ?_, ?_⟩
      · simp [add_tail, Store.update, hlen0]
      · intro j hj
        have hk1n : k - 1 < n := by omega
        have hkn : k < n := by omega
        have hmidlen : ((st0.update (k - 1) fun l =>
            { l with next := some k }).layers).length = n := by
          simp [Store.update, hlen0]
        by_cases hjk1 : j = k - 1
        · subst hjk1
          rw [add_tail, Store.update,
            getD_set_other _ k (k - 1) _ _ (by omega),
            Store.update, getD_set_self _ (k - 1) _ _ (by rw [hlen0]; exact hk1n)]
          obtain ⟨-, hp⟩ := hlinks0 (k - 1) hk1n
          constructor
          · simp only
            rw [if_pos (by omega)]
            congr 1
            omega
          · simp only
            rw [hp]
            by_cases h01 : 0 < k - 1
            · rw [if_pos (by omega), if_pos (by omega)]
            · rw [if_neg (by omega), if_neg (by omega)]
        · by_cases hjk : j = k
          · subst hjk
            rw [add_tail, Store.update,
              getD_set_self _ j _ _ (by rw [hmidlen]; exact hkn),
              Store.update, getD_set_other _ (j - 1) j _ _ (by omega)]
            obtain ⟨hn, -⟩ := hlinks0 j hkn
            constructor
            · simp only
              rw [hn, if_neg (by omega), if_neg (by omega)]
            · simp only
              rw [if_pos (by omega)]
          · rw [add_tail, Store.update, getD_set_other _ k j _ _ (by omega),
              Store.update, getD_set_other _ (k - 1) j _ _ (by omega)]
            obtain ⟨hn, hp⟩ := hlinks0 j hj
            constructor
            · rw [hn]
              by_cases hlt : j + 1 < k
              · rw [if_pos hlt, if_pos (by omega)]
              · rw [if_neg hlt, if_neg (by omega)]
            · rw [hp]
              by_cases hlt : 0 < j ∧ j < k
              · rw [if_pos hlt, if_pos (by omega)]
              · rw [if_neg hlt, if_neg (by omega)]

/-- Following next pointers along a straight-line chain of n layers from
layer j takes exactly n - j steps to reach the null end. -/
theorem chainLen_of_links (st : Store) (n : Nat)
    (hlinks : ∀ j, j < n → (st.layers.getD j ⟨none, none⟩).next =
      (if j + 1 < n then some (j + 1) else none)) :
    ∀ fuel j, j < n → n - j ≤ fuel → chainLen st fuel (some j) = n - j := by
  intro fuel
  induction fuel with
  | zero => intro j hj hf; omega
  | succ f ih =>
    intro j hj hf
    rw [chainLen, hlinks j hj]
    by_cases h : j + 1 < n
    · rw [if_pos h, ih (j + 1) h (by omega)]
      omega
    · rw [if_neg h]
      have hnone : chainLen st f none = 0 := by cases f <;> rfl
      rw [hnone]
      omega

/-- C10: after appending n ≥ 1 freshly constructed layers to an empty
network, head() is the first appended layer, tail() is the last, the
owned sequence has length n, every layer's next/prev pointer refers to
the layer appended immediately after/before it, and the adjacency chain
traversed from the head by next pointers has length exactly n. -/
theorem claim10_chain_integrity (n : Nat) (hn : 1 ≤ n) :
    (buildChain n).2.head? = some 0 ∧
    (buildChain n).2.getLast? = some (n - 1) ∧
    (buildChain n).2.length = n ∧
    (∀ j, j < n →
      ((buildChain n).1.layers.getD j ⟨none, none⟩).next =
        (if j + 1 < n then some (j + 1) else none) ∧
      ((buildChain n).1.layers.getD j ⟨none, none⟩).prev =
        (if 0 < j then some (j - 1) else none)) ∧
    (∀ fuel, n ≤ fuel → chainLen (buildChain n).1 fuel (some 0) = n) := by
  rcases hb : buildChain n with ⟨st, net⟩
  rw [buildChain] at hb
  obtain ⟨hnet, hlen, hlinks⟩ := buildChain_inv n n (Nat.le_refl n) st net hb
  subst hnet
  obtain ⟨m, hm⟩ : ∃ m, n = m + 1 := ⟨n - 1, by omega⟩
  refine ⟨?_, ?_, by simp, ?_, ?_⟩
  · rw [hm, List.range_succ_eq_map]
    rfl
  · rw [hm, List.range_succ, List.getLast?_concat]
    simp [hm]
  · intro j hj
    obtain ⟨hnx, hp⟩ := hlinks j hj
    refine ⟨hnx, ?_⟩
    rw [hp]
    by_cases h0 : 0 < j
    · rw [if_pos (by omega), if_pos h0]
    · rw [if_neg (by omega), if_neg h0]
  · intro fuel hfuel
    have := chainLen_of_links st n (fun j hj => (hlinks j hj).1) fuel 0 (by omega) (by omega)
    simpa using this

/-- Witness for C10 at n = 3 (and fuel 3 for the traversal). -/
theorem claim10_witness :
    (buildChain 3).2.head? = some 0 ∧
    (buildChain 3).2.getLast? = some 2 ∧
    (buildChain 3).2.length = 3 ∧
    chainLen (buildChain 3).1 3 (some 0) = 3 :=
  ⟨(claim10_chain_integrity 3 (by decide)).1,
   (claim10_chain_integrity 3 (by decide)).2.1,
   (claim10_chain_integrity 3 (by decide)).2.2.1,
   (claim10_chain_integrity 3 (by decide)).2.2.2.2 3 (by decide)⟩
